import Mathlib

/-!
Verification of the pvcast-frontend configuration page
(`src/pvcastfrontend/02-config.py`) as a shallow embedding in Lean 4.

The embedding follows the Python source:
* `ArrayConfig` and `PVPlant` are the two frozen dataclasses;
* the plant registry `State.pv_plants` is a Python dict from plant name to
  plant, modelled as an association list `List (String × PVPlant)` together
  with the Python dict update / removal semantics (`pyInsert`, `pyRemove`,
  `pyDict`);
* the voluptuous schema of `State.config_schema` is modelled over typed
  documents with optional fields (`ArrayDoc`, `PlantDoc`, `ConfigDoc`), so
  that a missing required field is representable;
* the UI callbacks (`on_new_plant`, `on_new_array`, `on_delete_plant`,
  `on_delete_array`, `on_save`, `on_load`) become functions on an explicit
  application state `AppState`; the YAML file is a field of that state, and
  an uncaught Python exception is modelled by `Option`.
-/

/-- The `ArrayConfig` frozen dataclass: one PV array record with its
defaults (`name=""`, `tilt=30`, `azimuth=180`, `modules_per_string=1`,
`strings=1`, `module=""`). -/
structure ArrayConfig where
  name : String := ""
  tilt : Int := 30
  azimuth : Int := 180
  modules_per_string : Int := 1
  strings : Int := 1
  module : String := ""
deriving DecidableEq

/-- The `PVPlant` frozen dataclass: a named plant owning an inverter name,
a microinverter flag and an ordered list of arrays. -/
structure PVPlant where
  name : String
  inverter : String := ""
  microinverter : Bool := false
  arrays : List ArrayConfig := []
deriving DecidableEq

/-- The plant registry: a Python dict from plant name to plant, as an
ordered association list. -/
abbrev Registry := List (String × PVPlant)

/-- Python `k in d` on a dict: some pair carries the key. -/
def hasKey (d : List (String × α)) (k : String) : Bool :=
  d.any (fun kv => decide (kv.1 = k))

/-- Python dict assignment `d[k] = v`: if the key is present the value is
replaced in place (the original key object and its position are kept),
otherwise the new pair is appended at the end. -/
def pyInsert (d : List (String × α)) (k : String) (v : α) :
    List (String × α) :=
  if hasKey d k then
    d.map (fun kv => if kv.1 = k then (kv.1, v) else kv)
  else d ++ [(k, v)]

/-- Python `dict.pop(k)` on an association list with the key present:
remove the first pair carrying the key. -/
def pyRemove (d : List (String × α)) (k : String) : List (String × α) :=
  match d with
  | [] => []
  | kv :: rest => if kv.1 = k then rest else kv :: pyRemove rest k

/-- Building a Python dict from a sequence of key/value pairs (as a dict
comprehension does): repeated assignment starting from the empty dict. -/
def pyDict (l : List (String × α)) : List (String × α) :=
  l.foldl (fun d kv => pyInsert d kv.1 kv.2) []

/-- Key lookup in an association list (Python `d[k]`, as an `Option`). -/
def lookupKey (d : List (String × α)) (k : String) : Option α :=
  match d with
  | [] => none
  | kv :: rest => if kv.1 = k then some kv.2 else lookupKey rest k

/-- Python `list.remove(x)`: drop the first element equal to `x`;
`none` models the `ValueError` raised when no element is equal. -/
def removeFirst (l : List ArrayConfig) (a : ArrayConfig) :
    Option (List ArrayConfig) :=
  match l with
  | [] => none
  | x :: xs =>
    if x = a then some xs else (removeFirst xs a).map (fun ys => x :: ys)

/-- An array record as serialized by `dataclasses.asdict`: every field
present.  The `Option` on each field lets the same document type also
describe ill-formed input with missing required fields. -/
structure ArrayDoc where
  name : Option String := none
  tilt : Option Int := none
  azimuth : Option Int := none
  modules_per_string : Option Int := none
  strings : Option Int := none
  module : Option String := none
deriving DecidableEq

/-- A plant record as serialized by `dataclasses.asdict`. -/
structure PlantDoc where
  name : Option String := none
  inverter : Option String := none
  microinverter : Option Bool := none
  arrays : Option (List ArrayDoc) := none
deriving DecidableEq

/-- The configuration document `{"plant": [...]}` handled by
`State.as_dict`, `State.config_schema` and `on_load`. -/
structure ConfigDoc where
  plant : List PlantDoc
deriving DecidableEq

/-- `vol.Range(min=lo, max=hi)` of voluptuous, bounds inclusive; `none`
means the bound is absent. -/
def volRange (lo hi : Option Int) (v : Int) : Bool :=
  (match lo with | some l => decide (l ≤ v) | none => true) &&
  (match hi with | some h => decide (v ≤ h) | none => true)

/-- `vol.Required(key): validator` applied to an optional field: the field
must be present and its value must pass the validator. -/
def volRequired (f : Option α) (check : α → Bool) : Bool :=
  match f with
  | some x => check x
  | none => false

/-- `vol.Length(min=n)` of voluptuous on a list. -/
def volLength (n : Nat) (l : List α) : Bool := decide (n ≤ l.length)

/-- The inner array schema of `State.config_schema`: required `name` and
`module` strings, `tilt` coerced to float and ranged over `[0, 90]`,
`azimuth` coerced to float and ranged over `[0, 360]`,
`modules_per_string` and `strings` integers at least 1.  The
`vol.Coerce(float)` steps are identities on the integer-typed documents
produced by the dataclasses, so they vanish in the embedding. -/
def array_schema (a : ArrayDoc) : Bool :=
  volRequired a.name (fun _ => true) &&
  volRequired a.tilt (volRange (some 0) (some 90)) &&
  volRequired a.azimuth (volRange (some 0) (some 360)) &&
  volRequired a.modules_per_string (volRange (some 1) none) &&
  volRequired a.strings (volRange (some 1) none) &&
  volRequired a.module (fun _ => true)

/-- The plant schema of `State.config_schema`: required `name` and
`inverter` strings, required `microinverter` (a `vol.Coerce(bool)`, an
identity on booleans), and a required list of arrays each matching
`array_schema`. -/
def plant_schema (p : PlantDoc) : Bool :=
  volRequired p.name (fun _ => true) &&
  volRequired p.inverter (fun _ => true) &&
  volRequired p.microinverter (fun _ => true) &&
  volRequired p.arrays (fun arrs => arrs.all array_schema)

/-- `State.config_schema` applied to a `{"plant": [...]}` document:
`vol.Required("plant"): vol.All([plant_schema], vol.Length(min=1))`. -/
def config_schema (c : ConfigDoc) : Bool :=
  c.plant.all plant_schema && volLength 1 c.plant

/-- `dataclasses.asdict` on an `ArrayConfig`. -/
def arrayAsDict (a : ArrayConfig) : ArrayDoc :=
  { name := some a.name, tilt := some a.tilt, azimuth := some a.azimuth,
    modules_per_string := some a.modules_per_string,
    strings := some a.strings, module := some a.module }

/-- `dataclasses.asdict` on a `PVPlant`. -/
def plantAsDict (p : PVPlant) : PlantDoc :=
  { name := some p.name, inverter := some p.inverter,
    microinverter := some p.microinverter,
    arrays := some (p.arrays.map arrayAsDict) }

/-- `State.as_dict`: the registry serialized to `{"plant": [...]}` in
registry order. -/
def as_dict (reg : Registry) : ConfigDoc :=
  { plant := reg.map (fun kv => plantAsDict kv.2) }

/-- `InputIntRow.filter_value`: clamp the entered integer to the
configured bounds, first from below then from above. -/
def filter_value (lower_bound upper_bound v : Int) : Int :=
  min (max v lower_bound) upper_bound

/-- The YAML configuration file content: the `plant` document list plus
the other top-level keys (whose values the page never inspects, so only
their names are kept). -/
structure ConfigFile where
  plant : List PlantDoc
  extra : List String := []
deriving DecidableEq

/-- The application state the claims range over: the reactive registry
`State.pv_plants`, the global `State.array_count`, the YAML file at
`CONFIG_FILE_PATH` (`none` when the file does not exist), and the
indicator flags and message of the `PlantConfiguration` component. -/
structure AppState where
  pv_plants : Registry
  array_count : Nat
  file : Option ConfigFile
  file_missing : Bool
  save_success : Bool
  save_error : Bool
  err_message : String
deriving DecidableEq

/-- The state the page starts from: an empty registry, a zero array
counter and cleared indicators, next to an arbitrary file on disk. -/
def initState (file : Option ConfigFile) : AppState :=
  { pv_plants := [], array_count := 0, file := file, file_missing := false,
    save_success := false, save_error := false, err_message := "" }

/-- `State.on_new_plant`: scan the keys for the plant name; if some key
equals it return unchanged, otherwise rebuild the dict with the new entry
(`{**old, name: plant}`, an append since the key is fresh). -/
def on_new_plant (st : AppState) (plant : PVPlant) : AppState :=
  if hasKey st.pv_plants plant.name then st
  else { st with pv_plants := pyInsert st.pv_plants plant.name plant }

/-- The array record `State.on_new_array` actually appends: the argument
array, renamed to `"Array c"` (with `c` the just-incremented global
counter) when its name is empty. -/
def newArrayRecord (st : AppState) (array : ArrayConfig) : ArrayConfig :=
  if array.name = "" then
    { array with name := "Array " ++ toString (st.array_count + 1) }
  else array

/-- `State.on_new_array`: increment the global counter, auto-name the
array if its name is empty, append it to the argument plant, and store
the updated plant in the dict under its name. -/
def on_new_array (st : AppState) (plant : PVPlant) (array : ArrayConfig) :
    AppState :=
  let plant2 := { plant with
    arrays := plant.arrays ++ [newArrayRecord st array] }
  { st with
    array_count := st.array_count + 1
    pv_plants := pyInsert st.pv_plants plant2.name plant2 }

/-- `State.on_delete_plant`: `dict.pop` on a copy; the `KeyError` on an
absent key is caught before the copy is stored, leaving the state
untouched. -/
def on_delete_plant (st : AppState) (plant : PVPlant) : AppState :=
  if hasKey st.pv_plants plant.name then
    { st with pv_plants := pyRemove st.pv_plants plant.name }
  else st

/-- `State.on_delete_array`: `list.remove` on a copy of the argument
plant's arrays; the `ValueError` on an absent array is caught before the
dict is updated, leaving the state untouched. -/
def on_delete_array (st : AppState) (plant : PVPlant)
    (array : ArrayConfig) : AppState :=
  match removeFirst plant.arrays array with
  | none => st
  | some arrays2 =>
    { st with pv_plants :=
        pyInsert st.pv_plants plant.name { plant with arrays := arrays2 } }

/-- The top-level keys `on_save` keeps from an existing file when it
merges `config_final.update(config_state)`. -/
def fileExtra : Option ConfigFile → List String
  | some f => f.extra
  | none => []

/-- `PlantConfiguration.on_save`: refuse an empty registry with an error
message, refuse a registry whose serialized form fails the schema with an
error message, and otherwise write the serialized plants into the file
(preserving any other top-level keys already there) and flag success. -/
def on_save (st : AppState) : AppState :=
  let config_state := as_dict st.pv_plants
  if config_state.plant.length = 0 then
    { st with
      save_error := true
      err_message := "No plants configured yet." }
  else if config_schema config_state then
    { st with
      file := some { plant := config_state.plant
                     extra := fileExtra st.file }
      save_success := true }
  else
    { st with
      save_error := true
      err_message := "The configuration is invalid" }

/-- `ArrayConfig(**array)` in `on_load`: keyword construction from a
document, with the dataclass defaults filling the missing keys. -/
def loadArray (a : ArrayDoc) : ArrayConfig :=
  { name := a.name.getD "", tilt := a.tilt.getD 30,
    azimuth := a.azimuth.getD 180,
    modules_per_string := a.modules_per_string.getD 1,
    strings := a.strings.getD 1, module := a.module.getD "" }

/-- One plant of the `on_load` dict comprehension: the explicit subscripts
`plant["name"]`, `plant["inverter"]`, `plant["microinverter"]`,
`plant["arrays"]` raise `KeyError` (here `none`) when absent. -/
def loadPlant (p : PlantDoc) : Option PVPlant :=
  match p.name, p.inverter, p.microinverter, p.arrays with
  | some n, some i, some m, some arrs =>
    some { name := n, inverter := i, microinverter := m,
           arrays := arrs.map loadArray }
  | _, _, _, _ => none

/-- The key/value pairs of the `on_load` dict comprehension, in document
order; `none` when some plant document raises. -/
def loadPairs : List PlantDoc → Option (List (String × PVPlant))
  | [] => some []
  | p :: rest =>
    match loadPlant p with
    | none => none
    | some pv => (loadPairs rest).map (fun l => (pv.name, pv) :: l)

/-- The registry `on_load` rebuilds from a plant document list. -/
def on_load_registry (docs : List PlantDoc) : Option Registry :=
  (loadPairs docs).map pyDict

/-- `PlantConfiguration.on_load`: clear the file-missing flag; when the
file exists replace the registry wholesale with the one rebuilt from the
file (`none` when a plant document raises), otherwise set the
file-missing flag and leave the registry alone. -/
def on_load (st : AppState) : Option AppState :=
  match st.file with
  | none => some { st with file_missing := true }
  | some f =>
    (on_load_registry f.plant).map
      (fun reg => { st with file_missing := false, pv_plants := reg })

/-- The registry key invariant: every plant is stored under exactly its
own name field. -/
def registryKeysOk (reg : Registry) : Bool :=
  reg.all (fun kv => decide (kv.2.name = kv.1))

/-- The registry states reachable from a fresh page through the state
callbacks and `on_load`. -/
inductive Reachable : AppState → Prop where
  | init (file : Option ConfigFile) : Reachable (initState file)
  | new_plant {st : AppState} (p : PVPlant) :
      Reachable st → Reachable (on_new_plant st p)
  | new_array {st : AppState} (p : PVPlant) (a : ArrayConfig) :
      Reachable st → Reachable (on_new_array st p a)
  | delete_plant {st : AppState} (p : PVPlant) :
      Reachable st → Reachable (on_delete_plant st p)
  | delete_array {st : AppState} (p : PVPlant) (a : ArrayConfig) :
      Reachable st → Reachable (on_delete_array st p a)
  | save {st : AppState} : Reachable st → Reachable (on_save st)
  | load {st st2 : AppState} :
      Reachable st → on_load st = some st2 → Reachable st2

/-- `Compass.calc_new_latlon` with the marker radius as a parameter
(`self.radius`, default 20): negate the angle, take the planar offsets
`1.5·radius·cos` / `1.5·radius·sin·1.05` in meters, and convert them to
degree offsets on the sphere of radius 6378137 m (the longitude offset
divided by `cos lat`, the latitude passed to `cos` in degrees as the
source does). -/
noncomputable def calc_new_latlon (radius lat lon angle_deg : ℝ) : ℝ × ℝ :=
  let a := -1 * angle_deg
  let dist_y := 1.5 * radius * Real.cos (a * (Real.pi / 180))
  let dist_x := 1.5 * radius * Real.sin (a * (Real.pi / 180)) * 1.05
  let xi : ℝ := 6378137
  (lat + (180 / Real.pi) * (dist_y / xi),
   lon + (180 / Real.pi) * (dist_x / xi) / Real.cos lat)

/-! ## Helper lemmas about the Python dict model -/

/-- The key scan of the dict corresponds to membership among the keys. -/
theorem hasKey_iff (d : List (String × α)) (k : String) :
    hasKey d k = true ↔ k ∈ d.map Prod.fst := by
  simp only [hasKey, List.any_eq_true, decide_eq_true_eq, List.mem_map]

/-- Assignment with a fresh key appends the pair at the end. -/
theorem pyInsert_of_not_mem (d : List (String × α)) (k : String) (v : α)
    (h : k ∉ d.map Prod.fst) : pyInsert d k v = d ++ [(k, v)] := by
  have hany : hasKey d k = false := by
    rw [← Bool.not_eq_true, hasKey_iff]
    exact h
  simp [pyInsert, hany]

/-- Replacing the value at a present key is found by lookup. -/
theorem lookupKey_map_replace (d : List (String × α)) (k : String) (v : α)
    (h : k ∈ d.map Prod.fst) :
    lookupKey (d.map (fun kv => if kv.1 = k then (kv.1, v) else kv)) k
      = some v := by
  induction d with
  | nil => simp at h
  | cons x rest ih =>
    by_cases hx : x.1 = k
    · simp [lookupKey, hx]
    · have hmem : k ∈ rest.map Prod.fst := by
        rcases List.mem_map.mp h with ⟨kv, hkv, hk⟩
        rcases List.mem_cons.mp hkv with rfl | hkv2
        · exact absurd hk hx
        · exact List.mem_map.mpr ⟨kv, hkv2, hk⟩
      simpa [lookupKey, hx] using ih hmem

/-- Replacing the value at one key leaves other lookups unchanged. -/
theorem lookupKey_map_replace_ne (d : List (String × α)) (k k2 : String)
    (v : α) (h : k2 ≠ k) :
    lookupKey (d.map (fun kv => if kv.1 = k then (kv.1, v) else kv)) k2
      = lookupKey d k2 := by
  induction d with
  | nil => simp [lookupKey]
  | cons x rest ih =>
    by_cases hx : x.1 = k
    · have hx2 : x.1 ≠ k2 := fun hc => h (hc.symm.trans hx)
      simp only [List.map_cons]
      rw [if_pos hx]
      simp only [lookupKey]
      rw [if_neg hx2, if_neg hx2]
      exact ih
    · by_cases hx2 : x.1 = k2
      · simp only [List.map_cons]
        rw [if_neg hx]
        simp only [lookupKey]
        rw [if_pos hx2, if_pos hx2]
      · simp only [List.map_cons]
        rw [if_neg hx]
        simp only [lookupKey]
        rw [if_neg hx2, if_neg hx2]
        exact ih

/-- An appended fresh pair is found by lookup. -/
theorem lookupKey_append_single (d : List (String × α)) (k : String)
    (v : α) (h : k ∉ d.map Prod.fst) :
    lookupKey (d ++ [(k, v)]) k = some v := by
  induction d with
  | nil => simp [lookupKey]
  | cons x rest ih =>
    have hx : x.1 ≠ k := by
      intro hc
      exact h (List.mem_map.mpr ⟨x, List.mem_cons_self x rest, hc⟩)
    have hrest : k ∉ rest.map Prod.fst := by
      intro hc
      rcases List.mem_map.mp hc with ⟨kv, hkv, hk⟩
      exact h (List.mem_map.mpr ⟨kv, List.mem_cons_of_mem x hkv, hk⟩)
    simpa [lookupKey, hx] using ih hrest

/-- An appended pair leaves other lookups unchanged. -/
theorem lookupKey_append_single_ne (d : List (String × α)) (k k2 : String)
    (v : α) (h : k2 ≠ k) :
    lookupKey (d ++ [(k, v)]) k2 = lookupKey d k2 := by
  induction d with
  | nil =>
    have : k ≠ k2 := fun hc => h hc.symm
    simp [lookupKey, this]
  | cons x rest ih =>
    by_cases hx : x.1 = k2
    · simp [lookupKey, hx]
    · simpa [lookupKey, hx] using ih

/-- Looking up the assigned key yields the assigned value. -/
theorem lookupKey_pyInsert_self (d : List (String × α)) (k : String)
    (v : α) : lookupKey (pyInsert d k v) k = some v := by
  rw [pyInsert]
  by_cases hany : hasKey d k = true
  · rw [if_pos hany]
    exact lookupKey_map_replace d k v ((hasKey_iff d k).mp hany)
  · rw [if_neg hany]
    refine lookupKey_append_single d k v ?_
    rw [← hasKey_iff d k]
    exact hany

/-- Assignment leaves the lookup of every other key unchanged. -/
theorem lookupKey_pyInsert_ne (d : List (String × α)) (k k2 : String)
    (v : α) (h : k2 ≠ k) :
    lookupKey (pyInsert d k v) k2 = lookupKey d k2 := by
  rw [pyInsert]
  by_cases hany : hasKey d k = true
  · rw [if_pos hany]
    exact lookupKey_map_replace_ne d k k2 v h
  · rw [if_neg hany]
    exact lookupKey_append_single_ne d k k2 v h

/-- Every pair of the updated dict is a pair of the old dict or carries
the assigned key and value. -/
theorem mem_pyInsert (d : List (String × α)) (k : String) (v : α)
    (kv : String × α) (h : kv ∈ pyInsert d k v) :
    kv ∈ d ∨ (kv.1 = k ∧ kv.2 = v) := by
  rw [pyInsert] at h
  by_cases hany : hasKey d k = true
  · rw [if_pos hany] at h
    rcases List.mem_map.mp h with ⟨x, hx, hxe⟩
    by_cases hk : x.1 = k
    · right
      rw [if_pos hk] at hxe
      refine ⟨?_, ?_⟩
      · rw [← hxe]
        exact hk
      · rw [← hxe]
    · left
      rw [if_neg hk] at hxe
      exact hxe ▸ hx
  · rw [if_neg hany] at h
    rcases List.mem_append.mp h with h | h
    · exact Or.inl h
    · right
      have hkv : kv = (k, v) := by simpa using h
      exact ⟨by rw [hkv], by rw [hkv]⟩

/-- Every pair surviving a removal was a pair of the old dict. -/
theorem mem_pyRemove (d : List (String × α)) (k : String)
    (kv : String × α) (h : kv ∈ pyRemove d k) : kv ∈ d := by
  induction d with
  | nil => simp [pyRemove] at h
  | cons x rest ih =>
    rw [pyRemove] at h
    by_cases hk : x.1 = k
    · rw [if_pos hk] at h
      exact List.mem_cons_of_mem x h
    · rw [if_neg hk] at h
      rcases List.mem_cons.mp h with h | h
      · exact h ▸ List.mem_cons_self x rest
      · exact List.mem_cons_of_mem x (ih h)

/-- Folding assignments over pairs with pairwise distinct fresh keys just
appends them behind the accumulator. -/
theorem pyDict_go (l : List (String × α)) :
    ∀ acc : List (String × α),
      (acc.map Prod.fst ++ l.map Prod.fst).Nodup →
      List.foldl (fun d kv => pyInsert d kv.1 kv.2) acc l = acc ++ l := by
  induction l with
  | nil =>
    intro acc _
    simp
  | cons kv rest ih =>
    intro acc h
    have hnd := List.nodup_append.mp (by simpa using h)
    have hk : kv.1 ∉ acc.map Prod.fst := fun hmem =>
      hnd.2.2 hmem (List.mem_cons_self kv.1 (rest.map Prod.fst))
    have hins : pyInsert acc kv.1 kv.2 = acc ++ [kv] := by
      rw [pyInsert_of_not_mem acc kv.1 kv.2 hk]
    rw [List.foldl_cons, hins, ih (acc ++ [kv]) (by simpa using h)]
    simp

/-- A dict comprehension over pairwise distinct keys keeps the pairs and
their order. -/
theorem pyDict_of_nodup (l : List (String × α))
    (h : (l.map Prod.fst).Nodup) : pyDict l = l := by
  have := pyDict_go l [] (by simpa using h)
  simpa [pyDict] using this

/-- `list.remove` raises exactly when the element does not occur. -/
theorem removeFirst_eq_none (l : List ArrayConfig) (a : ArrayConfig) :
    removeFirst l a = none ↔ a ∉ l := by
  induction l with
  | nil => simp [removeFirst]
  | cons x xs ih =>
    by_cases hx : x = a
    · simp [removeFirst, hx]
    · rw [removeFirst, if_neg hx]
      constructor
      · intro h
        have : removeFirst xs a = none := by
          cases hr : removeFirst xs a with
          | none => rfl
          | some ys => rw [hr] at h; simp at h
        intro hmem
        rcases List.mem_cons.mp hmem with rfl | hmem2
        · exact hx rfl
        · exact (ih.mp this) hmem2
      · intro h
        have : a ∉ xs := fun hc => h (List.mem_cons_of_mem x hc)
        rw [ih.mpr this]
        rfl

/-- `list.remove` on a present element removes exactly its first
occurrence. -/
theorem removeFirst_decomp (l : List ArrayConfig) (a : ArrayConfig)
    (h : a ∈ l) :
    ∃ pre post, l = pre ++ a :: post ∧ a ∉ pre ∧
      removeFirst l a = some (pre ++ post) := by
  induction l with
  | nil => simp at h
  | cons x xs ih =>
    by_cases hx : x = a
    · refine ⟨[], xs, ?_, ?_, ?_⟩
      · rw [hx]
        rfl
      · simp
      · rw [removeFirst, if_pos hx]
        rfl
    · have hmem : a ∈ xs := by
        rcases List.mem_cons.mp h with rfl | hm
        · exact absurd rfl hx
        · exact hm
      rcases ih hmem with ⟨pre, post, hsplit, hpre, hrem⟩
      refine ⟨x :: pre, post, ?_, ?_, ?_⟩
      · rw [List.cons_append, hsplit]
      · intro hc
        rcases List.mem_cons.mp hc with rfl | hm
        · exact hx rfl
        · exact hpre hm
      · rw [removeFirst, if_neg hx, hrem]
        rfl

/-- `dict.pop` on a present key removes exactly the first pair carrying
it. -/
theorem pyRemove_decomp (d : List (String × α)) (k : String)
    (h : k ∈ d.map Prod.fst) :
    ∃ pre v post, d = pre ++ (k, v) :: post ∧ k ∉ pre.map Prod.fst ∧
      pyRemove d k = pre ++ post := by
  induction d with
  | nil => simp at h
  | cons x xs ih =>
    by_cases hx : x.1 = k
    · refine ⟨[], x.2, xs, ?_, ?_, ?_⟩
      · rw [← hx]
        rfl
      · simp
      · rw [pyRemove, if_pos hx]
        rfl
    · have hmem : k ∈ xs.map Prod.fst := by
        rcases List.mem_map.mp h with ⟨kv, hkv, hke⟩
        rcases List.mem_cons.mp hkv with rfl | hm
        · exact absurd hke hx
        · exact List.mem_map.mpr ⟨kv, hm, hke⟩
      rcases ih hmem with ⟨pre, v, post, hsplit, hpre, hrem⟩
      refine ⟨x :: pre, v, post, ?_, ?_, ?_⟩
      · rw [List.cons_append, hsplit]
      · intro hc
        rcases List.mem_map.mp hc with ⟨kv, hkv, hke⟩
        rcases List.mem_cons.mp hkv with rfl | hm
        · exact hx hke
        · exact hpre (List.mem_map.mpr ⟨kv, hm, hke⟩)
      · rw [pyRemove, if_neg hx, hrem]
        rfl

/-! ## Helper lemmas about serialization and loading -/

/-- Loading a serialized array record restores it: every field is present
so no dataclass default is used. -/
theorem loadArray_arrayAsDict (a : ArrayConfig) :
    loadArray (arrayAsDict a) = a := by
  cases a
  simp [loadArray, arrayAsDict]

/-- Loading a serialized plant record restores it. -/
theorem loadPlant_plantAsDict (p : PVPlant) :
    loadPlant (plantAsDict p) = some p := by
  cases p with
  | mk name inverter microinverter arrays =>
    simp only [loadPlant, plantAsDict, List.map_map]
    have : arrays.map (loadArray ∘ arrayAsDict) = arrays := by
      have hcongr : arrays.map (loadArray ∘ arrayAsDict)
          = arrays.map id := by
        apply List.map_congr_left
        intro a _
        exact loadArray_arrayAsDict a
      rw [hcongr, List.map_id]
    rw [this]

/-- The dict comprehension of `on_load` over a serialized registry
reproduces the registry pairs keyed by plant name. -/
theorem loadPairs_asDict (reg : Registry) :
    loadPairs (reg.map (fun kv => plantAsDict kv.2))
      = some (reg.map (fun kv => (kv.2.name, kv.2))) := by
  induction reg with
  | nil => rfl
  | cons kv rest ih =>
    simp only [List.map_cons, loadPairs, loadPlant_plantAsDict, ih]
    rfl

/-- Every pair `on_load` builds is keyed by the name of its plant. -/
theorem loadPairs_keys (docs : List PlantDoc)
    (pairs : List (String × PVPlant)) (h : loadPairs docs = some pairs) :
    ∀ kv ∈ pairs, kv.2.name = kv.1 := by
  induction docs generalizing pairs with
  | nil =>
    intro kv hkv
    simp only [loadPairs, Option.some_inj] at h
    rw [← h] at hkv
    simp at hkv
  | cons p rest ih =>
    intro kv hkv
    rw [loadPairs] at h
    cases hp : loadPlant p with
    | none => rw [hp] at h; simp at h
    | some pv =>
      rw [hp] at h
      cases hr : loadPairs rest with
      | none => rw [hr] at h; simp at h
      | some l =>
        rw [hr] at h
        have h2 : (pv.name, pv) :: l = pairs := by
          have hsome : some ((pv.name, pv) :: l) = some pairs := h
          exact Option.some_inj.mp hsome
        rw [← h2] at hkv
        rcases List.mem_cons.mp hkv with rfl | hm
        · rfl
        · exact ih l hr kv hm

/-- `on_save` never touches the in-memory registry. -/
theorem on_save_pv_plants (st : AppState) :
    (on_save st).pv_plants = st.pv_plants := by
  rw [on_save]
  split
  · rfl
  · split
    · rfl
    · rfl

/-- Assignment keeps the registry key invariant when the assigned value
carries the assigned key as its name. -/
theorem pyInsert_keys_ok (d : Registry) (k : String) (v : PVPlant)
    (hd : ∀ kv ∈ d, kv.2.name = kv.1) (hv : v.name = k) :
    ∀ kv ∈ pyInsert d k v, kv.2.name = kv.1 := by
  intro kv hkv
  rcases mem_pyInsert d k v kv hkv with hmem | ⟨hk, hval⟩
  · exact hd kv hmem
  · rw [hval, hv, hk]

/-- The fold behind `pyDict` keeps the registry key invariant. -/
theorem pyDict_go_keys_ok (l : Registry) :
    ∀ acc : Registry, (∀ kv ∈ acc, kv.2.name = kv.1) →
      (∀ kv ∈ l, kv.2.name = kv.1) →
      ∀ kv ∈ List.foldl (fun d kv => pyInsert d kv.1 kv.2) acc l,
        kv.2.name = kv.1 := by
  induction l with
  | nil =>
    intro acc hacc _ kv hkv
    exact hacc kv hkv
  | cons x rest ih =>
    intro acc hacc hl kv hkv
    rw [List.foldl_cons] at hkv
    have hx : x.2.name = x.1 := hl x (List.mem_cons_self x rest)
    have hacc2 : ∀ kv ∈ pyInsert acc x.1 x.2, kv.2.name = kv.1 :=
      pyInsert_keys_ok acc x.1 x.2 hacc hx
    have hrest : ∀ kv ∈ rest, kv.2.name = kv.1 := fun kv hm =>
      hl kv (List.mem_cons_of_mem x hm)
    exact ih (pyInsert acc x.1 x.2) hacc2 hrest kv hkv

/-- A dict comprehension keeps the registry key invariant of its pairs. -/
theorem pyDict_keys_ok (l : Registry)
    (h : ∀ kv ∈ l, kv.2.name = kv.1) :
    ∀ kv ∈ pyDict l, kv.2.name = kv.1 := by
  rw [pyDict]
  exact pyDict_go_keys_ok l [] (by intro kv hkv; simp at hkv) h

/-! ## Schema characterization -/

/-- A required field validates exactly when it is present with a passing
value. -/
theorem volRequired_eq_true (f : Option α) (check : α → Bool) :
    volRequired f check = true ↔ ∃ x, f = some x ∧ check x = true := by
  cases f <;> simp [volRequired]

/-- Pointwise characterization of the array schema. -/
theorem array_schema_iff (a : ArrayDoc) :
    array_schema a = true ↔
      a.name.isSome = true ∧
      (∃ t, a.tilt = some t ∧ 0 ≤ t ∧ t ≤ 90) ∧
      (∃ z, a.azimuth = some z ∧ 0 ≤ z ∧ z ≤ 360) ∧
      (∃ m, a.modules_per_string = some m ∧ 1 ≤ m) ∧
      (∃ s, a.strings = some s ∧ 1 ≤ s) ∧
      a.module.isSome = true := by
  simp [array_schema, volRequired_eq_true, volRange,
    Option.isSome_iff_exists, and_assoc]

/-- Pointwise characterization of the plant schema. -/
theorem plant_schema_iff (p : PlantDoc) :
    plant_schema p = true ↔
      p.name.isSome = true ∧ p.inverter.isSome = true ∧
      p.microinverter.isSome = true ∧
      ∃ arrs, p.arrays = some arrs ∧
        ∀ a ∈ arrs, array_schema a = true := by
  simp [plant_schema, volRequired_eq_true, Option.isSome_iff_exists,
    List.all_eq_true, and_assoc]

/-! ## Claim theorems -/

/-- C1.  `State.config_schema` accepts a `{"plant": [...]}` document
exactly when the plant list is non-empty, every plant record has all its
required fields, and every array record has all its required fields with
tilt in `[0, 90]`, azimuth in `[0, 360]`, `modules_per_string ≥ 1` and
`strings ≥ 1`; a missing field or an out-of-range value is rejected
(`Invalid`). -/
theorem config_schema_accepts_iff (c : ConfigDoc) :
    config_schema c = true ↔
      c.plant ≠ [] ∧
      ∀ p ∈ c.plant,
        p.name.isSome = true ∧ p.inverter.isSome = true ∧
        p.microinverter.isSome = true ∧
        ∃ arrs, p.arrays = some arrs ∧
          ∀ a ∈ arrs,
            a.name.isSome = true ∧
            (∃ t, a.tilt = some t ∧ 0 ≤ t ∧ t ≤ 90) ∧
            (∃ z, a.azimuth = some z ∧ 0 ≤ z ∧ z ≤ 360) ∧
            (∃ m, a.modules_per_string = some m ∧ 1 ≤ m) ∧
            (∃ s, a.strings = some s ∧ 1 ≤ s) ∧
            a.module.isSome = true := by
  have hlen : (volLength 1 c.plant = true) ↔ c.plant ≠ [] := by
    simp [volLength, Nat.one_le_iff_ne_zero, List.length_eq_zero]
  rw [config_schema, Bool.and_eq_true, hlen, List.all_eq_true]
  simp only [plant_schema_iff, array_schema_iff]
  exact and_comm

/-- C10.  The typed input filter stores exactly the entered value clamped
to the configured closed interval. -/
theorem filter_value_spec (lower_bound upper_bound v : Int)
    (h : lower_bound ≤ upper_bound) :
    filter_value lower_bound upper_bound v
        = min upper_bound (max v lower_bound) ∧
      lower_bound ≤ filter_value lower_bound upper_bound v ∧
      filter_value lower_bound upper_bound v ≤ upper_bound := by
  refine ⟨min_comm _ _, ?_, min_le_right _ _⟩
  exact le_min (le_max_right v lower_bound) h

/-- C10 witness: the filter at the azimuth bounds clamps 400 to 360. -/
theorem filter_value_spec_witness :
    filter_value 0 360 400 = min 360 (max 400 0) ∧
      (0 : Int) ≤ filter_value 0 360 400 ∧
      filter_value 0 360 400 ≤ 360 :=
  filter_value_spec 0 360 400 (by decide)

/-- C4.  Insertion into the registry enforces name uniqueness: a plant
whose name is already a key leaves the whole state unchanged; otherwise
the new entry is appended at the end, every existing entry and their
order untouched. -/
theorem on_new_plant_spec (st : AppState) (p : PVPlant) :
    (p.name ∈ st.pv_plants.map Prod.fst → on_new_plant st p = st) ∧
    (p.name ∉ st.pv_plants.map Prod.fst →
      on_new_plant st p
        = { st with pv_plants := st.pv_plants ++ [(p.name, p)] }) := by
  constructor
  · intro h
    rw [on_new_plant, if_pos ((hasKey_iff st.pv_plants p.name).mpr h)]
  · intro h
    have hkey : hasKey st.pv_plants p.name ≠ true := fun hc =>
      h ((hasKey_iff st.pv_plants p.name).mp hc)
    rw [on_new_plant, if_neg hkey,
      pyInsert_of_not_mem st.pv_plants p.name p h]

/-- C5.  Adding an array appends exactly one record at the end of the
argument plant's array list and stores the result under that plant's
name, leaving every other registry entry untouched; the global counter
increments on every call, and an empty array name is auto-generated as
`"Array c"` from the counter after the increment. -/
theorem on_new_array_spec (st : AppState) (plant : PVPlant)
    (array : ArrayConfig) :
    (on_new_array st plant array).array_count = st.array_count + 1 ∧
    (array.name = "" →
      newArrayRecord st array
        = { array with
            name := "Array " ++ toString (st.array_count + 1) }) ∧
    (array.name ≠ "" → newArrayRecord st array = array) ∧
    lookupKey (on_new_array st plant array).pv_plants plant.name
      = some { plant with
               arrays := plant.arrays ++ [newArrayRecord st array] } ∧
    (∀ k, k ≠ plant.name →
      lookupKey (on_new_array st plant array).pv_plants k
        = lookupKey st.pv_plants k) ∧
    (on_new_array st plant array).file = st.file := by
  refine ⟨rfl, ?_, ?_, ?_, ?_, rfl⟩
  · intro h
    rw [newArrayRecord, if_pos h]
  · intro h
    rw [newArrayRecord, if_neg h]
  · exact lookupKey_pyInsert_self st.pv_plants plant.name _
  · intro k hk
    exact lookupKey_pyInsert_ne st.pv_plants plant.name k _ hk

/-- Evaluation of `on_save` on an empty registry: error branch. -/
theorem on_save_eval_empty (st : AppState) (h : st.pv_plants = []) :
    on_save st = { st with
      save_error := true
      err_message := "No plants configured yet." } := by
  have hlen : (as_dict st.pv_plants).plant.length = 0 := by
    rw [h]
    rfl
  simp only [on_save]
  rw [if_pos hlen]

/-- Evaluation of `on_save` on an invalid registry: error branch. -/
theorem on_save_eval_invalid (st : AppState) (h1 : st.pv_plants ≠ [])
    (h2 : config_schema (as_dict st.pv_plants) = false) :
    on_save st = { st with
      save_error := true
      err_message := "The configuration is invalid" } := by
  have hlen : (as_dict st.pv_plants).plant.length ≠ 0 := by
    simp only [as_dict, List.length_map]
    intro hc
    exact h1 (List.length_eq_zero.mp hc)
  simp only [on_save]
  rw [if_neg hlen, if_neg (by rw [h2]; exact Bool.false_ne_true)]

/-- Evaluation of `on_save` on a non-empty valid registry: the write. -/
theorem on_save_eval_valid (st : AppState) (h1 : st.pv_plants ≠ [])
    (h2 : config_schema (as_dict st.pv_plants) = true) :
    on_save st = { st with
      file := some { plant := (as_dict st.pv_plants).plant
                     extra := fileExtra st.file }
      save_success := true } := by
  have hlen : (as_dict st.pv_plants).plant.length ≠ 0 := by
    simp only [as_dict, List.length_map]
    intro hc
    exact h1 (List.length_eq_zero.mp hc)
  simp only [on_save]
  rw [if_neg hlen, if_pos h2]

/-- C2.  `on_save` never touches the registry; it writes the file only
when the registry is non-empty and its serialized form passes the schema,
and otherwise sets the error indicator with a message and leaves the file
untouched. -/
theorem on_save_spec (st : AppState) :
    (on_save st).pv_plants = st.pv_plants ∧
    ((st.pv_plants = [] ∨ config_schema (as_dict st.pv_plants) = false) →
      (on_save st).file = st.file ∧ (on_save st).save_error = true ∧
      (on_save st).err_message ≠ "") ∧
    (st.pv_plants ≠ [] → config_schema (as_dict st.pv_plants) = true →
      on_save st = { st with
        file := some { plant := (as_dict st.pv_plants).plant
                       extra := fileExtra st.file }
        save_success := true }) := by
  refine ⟨on_save_pv_plants st, ?_, fun h1 h2 => on_save_eval_valid st h1 h2⟩
  intro h
  by_cases h1 : st.pv_plants = []
  · rw [on_save_eval_empty st h1]
    refine ⟨rfl, rfl, ?_⟩
    show "No plants configured yet." ≠ ""
    decide
  · have h2 : config_schema (as_dict st.pv_plants) = false := by
      rcases h with h | h
      · exact absurd h h1
      · exact h
    rw [on_save_eval_invalid st h1 h2]
    refine ⟨rfl, rfl, ?_⟩
    show "The configuration is invalid" ≠ ""
    decide

/-- C7.  `on_load` on a missing file only raises the file-missing
indicator and keeps the registry; on an existing (well-formed) file it
replaces the registry wholesale with the one rebuilt from the file,
keyed by each plant's name. -/
theorem on_load_spec (st : AppState) :
    (st.file = none → on_load st = some { st with file_missing := true }) ∧
    (∀ f reg, st.file = some f → on_load_registry f.plant = some reg →
      on_load st
          = some { st with file_missing := false, pv_plants := reg } ∧
        ∀ kv ∈ reg, kv.2.name = kv.1) := by
  obtain ⟨pv, ac, file, fm, ss, se, em⟩ := st
  constructor
  · intro h
    have h2 : file = none := h
    subst h2
    rfl
  · intro f reg hf hr
    have hf2 : file = some f := hf
    subst hf2
    constructor
    · show Option.map
          (fun reg : Registry =>
            ({ pv_plants := reg, array_count := ac, file := some f,
               file_missing := false, save_success := ss,
               save_error := se, err_message := em } : AppState))
          (on_load_registry f.plant)
        = some ({ pv_plants := reg, array_count := ac, file := some f,
                  file_missing := false, save_success := ss,
                  save_error := se, err_message := em } : AppState)
      rw [hr]
      rfl
    · rw [on_load_registry] at hr
      cases hp : loadPairs f.plant with
      | none =>
        rw [hp] at hr
        simp at hr
      | some pairs =>
        rw [hp] at hr
        have hreg : pyDict pairs = reg := by
          have hsome : some (pyDict pairs) = some reg := hr
          exact Option.some_inj.mp hsome
        rw [← hreg]
        exact pyDict_keys_ok pairs (loadPairs_keys f.plant pairs hp)

/-- C3.  Round-trip: serializing a registry whose keys are the plant
names and rebuilding it the way `on_load` does yields the same registry
with the same key order. -/
theorem as_dict_on_load_roundtrip (reg : Registry)
    (hkeys : ∀ kv ∈ reg, kv.2.name = kv.1)
    (hnd : (reg.map Prod.fst).Nodup) :
    on_load_registry (as_dict reg).plant = some reg := by
  have h1 : (as_dict reg).plant = reg.map (fun kv => plantAsDict kv.2) :=
    rfl
  have h2 : reg.map (fun kv => (kv.2.name, kv.2)) = reg := by
    have hcongr : reg.map (fun kv => (kv.2.name, kv.2)) = reg.map id := by
      apply List.map_congr_left
      intro kv hkv
      rw [hkeys kv hkv]
      exact Prod.mk.eta
    rw [hcongr, List.map_id]
  rw [on_load_registry, h1, loadPairs_asDict, h2]
  show some (pyDict reg) = some reg
  rw [pyDict_of_nodup reg hnd]

/-- A sample array record. -/
def wArray : ArrayConfig :=
  { name := "East", tilt := 30, azimuth := 90, modules_per_string := 4,
    strings := 1, module := "Trina_Solar_TSM_330DD14A_II_" }

/-- A sample plant with one array. -/
def wPlantA : PVPlant :=
  { name := "EastWest", inverter := "SolarEdge_Technologies",
    microinverter := false, arrays := [wArray] }

/-- A second sample plant with no arrays. -/
def wPlantB : PVPlant :=
  { name := "South", inverter := "Enphase", microinverter := true,
    arrays := [] }

/-- A sample registry of two plants keyed by their names. -/
def wReg : Registry := [("EastWest", wPlantA), ("South", wPlantB)]

/-- C3 witness: the round-trip on the sample registry. -/
theorem as_dict_on_load_roundtrip_witness :
    on_load_registry (as_dict wReg).plant = some wReg :=
  as_dict_on_load_roundtrip wReg (by decide) (by decide)

/-- C8.  Deletion is a no-op on absent targets: deleting a plant whose
name is not a key, or an array that is not in the plant's list, leaves
the state exactly as it was; deleting a present plant removes exactly the
first pair carrying its name, and deleting a present array stores the
plant with exactly the first occurrence of that array removed. -/
theorem on_delete_spec (st : AppState) (p plant : PVPlant)
    (a : ArrayConfig) :
    (p.name ∉ st.pv_plants.map Prod.fst → on_delete_plant st p = st) ∧
    (p.name ∈ st.pv_plants.map Prod.fst →
      ∃ pre v post,
        st.pv_plants = pre ++ (p.name, v) :: post ∧
        p.name ∉ pre.map Prod.fst ∧
        (on_delete_plant st p).pv_plants = pre ++ post) ∧
    (a ∉ plant.arrays → on_delete_array st plant a = st) ∧
    (a ∈ plant.arrays →
      ∃ pre post,
        plant.arrays = pre ++ a :: post ∧ a ∉ pre ∧
        (on_delete_array st plant a).pv_plants
          = pyInsert st.pv_plants plant.name
              { plant with arrays := pre ++ post }) := by
  refine ⟨?_, ?_, ?_, ?_⟩
  · intro h
    rw [on_delete_plant,
      if_neg (fun hc => h ((hasKey_iff st.pv_plants p.name).mp hc))]
  · intro h
    rcases pyRemove_decomp st.pv_plants p.name h with
      ⟨pre, v, post, hsplit, hpre, hrem⟩
    refine ⟨pre, v, post, hsplit, hpre, ?_⟩
    rw [on_delete_plant, if_pos ((hasKey_iff st.pv_plants p.name).mpr h)]
    exact hrem
  · intro h
    unfold on_delete_array
    rw [(removeFirst_eq_none plant.arrays a).mpr h]
  · intro h
    rcases removeFirst_decomp plant.arrays a h with
      ⟨pre, post, hsplit, hpre, hrem⟩
    refine ⟨pre, post, hsplit, hpre, ?_⟩
    unfold on_delete_array
    rw [hrem]

/-- C9.  Registry key invariant: in every state reachable from a fresh
page through the state callbacks and `on_load`, every plant is stored
under exactly its own name field. -/
theorem registry_key_invariant (st : AppState) (h : Reachable st) :
    registryKeysOk st.pv_plants = true := by
  rw [registryKeysOk, List.all_eq_true]
  have haux : ∀ kv ∈ st.pv_plants, kv.2.name = kv.1 := by
    induction h with
    | init file =>
      intro kv hkv
      simp [initState] at hkv
    | new_plant p hst ih =>
      rename_i st1
      intro kv hkv
      rw [on_new_plant] at hkv
      by_cases hc : hasKey st1.pv_plants p.name = true
      · rw [if_pos hc] at hkv
        exact ih kv hkv
      · rw [if_neg hc] at hkv
        exact pyInsert_keys_ok st1.pv_plants p.name p ih rfl kv hkv
    | new_array p a hst ih =>
      rename_i st1
      intro kv hkv
      have hkv2 : kv ∈ pyInsert st1.pv_plants p.name
          { p with arrays := p.arrays ++ [newArrayRecord st1 a] } := hkv
      exact pyInsert_keys_ok st1.pv_plants p.name
        { p with arrays := p.arrays ++ [newArrayRecord st1 a] }
        ih rfl kv hkv2
    | delete_plant p hst ih =>
      rename_i st1
      intro kv hkv
      rw [on_delete_plant] at hkv
      by_cases hc : hasKey st1.pv_plants p.name = true
      · rw [if_pos hc] at hkv
        exact ih kv (mem_pyRemove st1.pv_plants p.name kv hkv)
      · rw [if_neg hc] at hkv
        exact ih kv hkv
    | delete_array p a hst ih =>
      rename_i st1
      intro kv hkv
      unfold on_delete_array at hkv
      cases hr : removeFirst p.arrays a with
      | none =>
        rw [hr] at hkv
        exact ih kv hkv
      | some arrays2 =>
        rw [hr] at hkv
        exact pyInsert_keys_ok st1.pv_plants p.name
          { p with arrays := arrays2 } ih rfl kv hkv
    | save hst ih =>
      intro kv hkv
      rw [on_save_pv_plants] at hkv
      exact ih kv hkv
    | load hst hload ih =>
      rename_i st1 st2
      intro kv hkv
      obtain ⟨pv1, ac1, file1, fm1, ss1, se1, em1⟩ := st1
      cases file1 with
      | none =>
        have h2 : ({ pv_plants := pv1
                     array_count := ac1
                     file := none
                     file_missing := true
                     save_success := ss1
                     save_error := se1
                     err_message := em1 } : AppState) = st2 :=
          Option.some_inj.mp hload
        rw [← h2] at hkv
        exact ih kv hkv
      | some f =>
        have h3 : Option.map (fun reg : Registry =>
            ({ pv_plants := reg
               array_count := ac1
               file := some f
               file_missing := false
               save_success := ss1
               save_error := se1
               err_message := em1 } : AppState))
              (on_load_registry f.plant) = some st2 := hload
        cases hreg : on_load_registry f.plant with
        | none =>
          rw [hreg] at h3
          simp at h3
        | some reg =>
          rw [hreg] at h3
          have h2 : ({ pv_plants := reg
                       array_count := ac1
                       file := some f
                       file_missing := false
                       save_success := ss1
                       save_error := se1
                       err_message := em1 } : AppState) = st2 :=
            Option.some_inj.mp h3
          rw [← h2] at hkv
          have hkv2 : kv ∈ reg := hkv
          rw [on_load_registry] at hreg
          cases hp : loadPairs f.plant with
          | none =>
            rw [hp] at hreg
            simp at hreg
          | some pairs =>
            rw [hp] at hreg
            have hpd : pyDict pairs = reg := by
              have hsome : some (pyDict pairs) = some reg := hreg
              exact Option.some_inj.mp hsome
            rw [← hpd] at hkv2
            exact pyDict_keys_ok pairs
              (loadPairs_keys f.plant pairs hp) kv hkv2
  intro kv hkv
  exact decide_eq_true (haux kv hkv)

/-- C9 witness: the invariant at a concrete reachable state. -/
theorem registry_key_invariant_witness :
    registryKeysOk (on_new_plant (initState none) wPlantA).pv_plants
      = true :=
  registry_key_invariant _
    (Reachable.new_plant wPlantA (Reachable.init none))

/-- C6.  Evaluating `Compass.calc_new_latlon` at the default radius 20,
center `(0, 0)` and azimuth 90 (due East by the compass convention): the
returned longitude is strictly smaller than the center longitude, i.e.
the pointer moves due West.  The angle negation makes the longitude
offset proportional to minus the sine of the azimuth, contradicting the
clockwise-from-North convention the widget is documented to follow. -/
theorem calc_new_latlon_azimuth90_moves_west :
    (calc_new_latlon 20 0 0 90).2 < 0 := by
  have harg : ((-1 : ℝ) * 90) * (Real.pi / 180) = -(Real.pi / 2) := by
    ring
  have hsin : Real.sin (((-1 : ℝ) * 90) * (Real.pi / 180)) = -1 := by
    rw [harg, Real.sin_neg, Real.sin_pi_div_two]
  show (0 : ℝ) + (180 / Real.pi)
      * ((1.5 * 20 * Real.sin (((-1 : ℝ) * 90) * (Real.pi / 180)) * 1.05)
          / 6378137) / Real.cos 0 < 0
  rw [hsin, Real.cos_zero, div_one, zero_add]
  have hfac : (0 : ℝ) < 180 / Real.pi := by positivity
  have hneg : (1.5 * 20 * (-1 : ℝ) * 1.05) / 6378137 < 0 := by norm_num
  exact mul_neg_of_pos_of_neg hfac hneg
